import Mathlib

/-!
Verification of the `fwxcharts` time-series merge pipeline and source loaders.

Times (`chrono::NaiveDateTime`) are modelled as `Int` (seconds since an epoch) and
`chrono::Duration` values as `Int` numbers of seconds.  The `HashMap` used by
`EnsembleSeries::merge` is modelled as an association list with unique keys: the
`entry` API of a hash map guarantees one binding per key, and since `merge` sorts
its values by valid time at the end (and the keys are exactly the distinct valid
times), the unspecified hash iteration order cannot be observed.  The single
`unwrap` inside `merge` is modelled by returning `Option`: `none` is a panic.
Channel emissions of the loader threads in `sources.rs` are modelled as the
ordered list of messages sent; external collaborators (the filesystem, the
`bufkit_data` archive and the `sounding_bufkit` parser) are oracles passed in as
function arguments.
-/

namespace Fwxcharts

/-- `bufkit_data::SiteInfo` (opaque external record; only the station number is
consulted by this crate, the identifier keeps distinct sites distinct). -/
structure SiteInfo where
  station_num : Nat
  id : String
deriving DecidableEq, Repr

/-- `MetaData` from `src/timeseries.rs`: site, model name and the start/now/end
window of the associated data.  The Rust field `end` is a Lean keyword, hence
the guillemets. -/
structure MetaData where
  site : SiteInfo
  model : String
  start : Int
  now : Int
  «end» : Int
deriving DecidableEq, Repr

/-- The `ValidTime` trait from `src/timeseries.rs`. -/
class ValidTime (T : Type) where
  valid_time : T → Option Int

/-- The `ModelTimes` trait from `src/timeseries.rs`: a valid time and a lead time. -/
class ModelTimes (T : Type) extends ValidTime T where
  lead_time : T → Option Int

export ValidTime (valid_time)
export ModelTimes (lead_time)

/-- `TimeSeries<T>` from `src/timeseries.rs`: a wrapper around a vector. -/
structure TimeSeries (T : Type) where
  data : List T
deriving DecidableEq, Repr

/-- `EnsembleList<T>` from `src/timeseries.rs`: a `MetaData` plus one
`(init_time, payload)` pair per model run. -/
structure EnsembleList (T : Type) where
  meta : MetaData
  data : List (Int × T)
deriving DecidableEq, Repr

/-- `EnsembleSeries<T> = EnsembleList<TimeSeries<T>>`. -/
abbrev EnsembleSeries (T : Type) := EnsembleList (TimeSeries T)

/-- `MergedSeries<T>` from `src/timeseries.rs`. -/
structure MergedSeries (T : Type) where
  meta : MetaData
  data : TimeSeries T
deriving DecidableEq, Repr

/-- `EnsembleList::filter_map` from `src/timeseries.rs` (lines 59-74). -/
def EnsembleList.filter_map (e : EnsembleList T) (func : T → Option U) :
    EnsembleList U :=
  { meta := e.meta,
    data := e.data.filterMap (fun p => (func p.2).map (fun u => (p.1, u))) }

/-- `EnsembleList::is_empty` from `src/timeseries.rs`. -/
def EnsembleList.is_empty (e : EnsembleList T) : Bool :=
  e.data.isEmpty

/-- `EnsembleSeries::filter_map_inner` from `src/timeseries.rs` (lines 84-114):
apply `func` to each element of each run's inner series, drop a run entirely
when its filtered inner series comes out empty. -/
def filter_map_inner [ValidTime T] [ValidTime U] (e : EnsembleSeries T)
    (func : T → Option U) : EnsembleSeries U :=
  { meta := e.meta,
    data := e.data.filterMap (fun p =>
      let inner_data : List U := p.2.data.filterMap func
      if inner_data.isEmpty then none else some (p.1, TimeSeries.mk inner_data)) }

/-- `MergedSeries::filter_map` from `src/timeseries.rs` (lines 119-137). -/
def MergedSeries.filter_map [ValidTime T] [ValidTime U] (m : MergedSeries T)
    (func : T → Option U) : MergedSeries U :=
  { meta := m.meta, data := TimeSeries.mk (m.data.data.filterMap func) }

/-- Lookup in the valid-time pool (the `HashMap` of `merge`, modelled as an
association list with unique keys). -/
def poolFind (v : Int) : List (Int × T) → Option T
  | [] => none
  | (k, x) :: rest => if k = v then some x else poolFind v rest

/-- Overwrite the binding of key `v` in the pool (`*cmp_val = val_t`). -/
def poolReplace (v : Int) (x : T) : List (Int × T) → List (Int × T)
  | [] => []
  | (k, y) :: rest => if k = v then (k, x) :: rest else (k, y) :: poolReplace v x rest

/-- One iteration of the inner loop of `EnsembleSeries::merge`
(`src/timeseries.rs` lines 163-178): skip elements lacking a valid or lead
time; on a vacant valid time insert; on an occupied one replace only when the
new lead time is strictly smaller than the stored entry's lead time.  The
stored entry's `lead_time().unwrap()` is modelled by returning `none` (panic)
when the stored lead time is absent. -/
def poolStep [ModelTimes T] (pool : List (Int × T)) (x : T) :
    Option (List (Int × T)) :=
  match valid_time x, lead_time x with
  | some v, some l =>
    match poolFind v pool with
    | some cmp =>
      match lead_time cmp with
      | some lc => some (if l < lc then poolReplace v x pool else pool)
      | none => none
    | none => some (pool ++ [(v, x)])
  | _, _ => some pool

/-- The run loop of `EnsembleSeries::merge` (`src/timeseries.rs` lines
160-179): fold `poolStep` over every element of every run, in order. -/
def mergeRuns [ModelTimes T] (runs : List (Int × TimeSeries T))
    (pool : List (Int × T)) : Option (List (Int × T)) :=
  runs.foldlM (fun p r => r.2.data.foldlM poolStep p) pool

/-- The comparison used by `data.sort_by_key(|val| val.valid_time())`
(`src/timeseries.rs` line 182): `Option` ordering with `none` least. -/
def vtLe [ValidTime T] (a b : T) : Bool :=
  match valid_time a, valid_time b with
  | none, _ => true
  | some _, none => false
  | some x, some y => decide (x ≤ y)

/-- Insertion step of the valid-time sort. -/
def sortInsert [ValidTime T] (x : T) : List T → List T
  | [] => [x]
  | y :: ys => if vtLe x y then x :: y :: ys else y :: sortInsert x ys

/-- `data.sort_by_key(|val| val.valid_time())` from `src/timeseries.rs` line
182, as an insertion sort.  The pool holds at most one entry per valid time, so
every sort by this key produces the same list. -/
def sort_by_valid_time [ValidTime T] : List T → List T
  | [] => []
  | x :: xs => sortInsert x (sort_by_valid_time xs)

/-- `EnsembleSeries::merge` from `src/timeseries.rs` (lines 151-187).  `none`
means the `unwrap` on a stored entry's lead time panicked. -/
def merge [ModelTimes T] (e : EnsembleSeries T) : Option (MergedSeries T) :=
  (mergeRuns e.data []).map (fun pool =>
    { meta := e.meta, data := TimeSeries.mk (sort_by_valid_time (pool.map Prod.snd)) })

/-- Strictly-ascending-valid-time ordering on elements. -/
def vtLt [ValidTime T] (a b : T) : Prop :=
  ∃ va vb, valid_time a = some va ∧ valid_time b = some vb ∧ va < vb

/-- All elements of all runs, in input iteration order (runs in order, elements
within a run in order). -/
def runsElems (runs : List (Int × TimeSeries T)) : List T :=
  runs.flatMap (fun r => r.2.data)

/-- The input elements competing for valid time `v`: those whose valid time is
`v` and whose lead time is defined, in input iteration order. -/
def candidates [ModelTimes T] (v : Int) (l : List T) : List T :=
  l.filter (fun x => valid_time x == some v && (lead_time x).isSome)

/-- The lead time of an element known to have one. -/
def leadD [ModelTimes T] (x : T) : Int :=
  (lead_time x).getD 0

/-! Embedding of `src/sources.rs`.  Each loader spawns one thread that sends
messages on an unbounded channel; the observable behaviour of a loader run is
the ordered list of messages it sends.  Fallible external collaborators are
supplied as oracle arguments. -/

/-- `bufkit_data::BufkitDataErr` (external error enum; the code constructors
model io errors, `sounding_bufkit` errors, `NotEnoughData`, `NotInIndex` and
other archive errors). -/
inductive BufkitDataErr where
  | io (code : Nat)
  | bufkit (code : Nat)
  | notEnoughData
  | notInIndex
  | other (code : Nat)
deriving DecidableEq, Repr

/-- `bufkit_data::Model` (external enum; the three variants used by
`num_days`). -/
inductive Model where
  | GFS
  | NAM
  | NAM4KM
deriving DecidableEq, Repr

/-- `Model::iter()` enumeration order (declaration order of the variants). -/
def Model.all : List Model := [Model.GFS, Model.NAM, Model.NAM4KM]

/-- `Model::as_static_str` from `bufkit_data`. -/
def as_static_str : Model → String
  | Model.GFS => "GFS"
  | Model.NAM => "NAM"
  | Model.NAM4KM => "NAM4KM"

/-- `num_days` from `src/sources.rs` (lines 248-254): days of data available
per model. -/
def num_days : Model → Int
  | Model.GFS => 7
  | Model.NAM => 4
  | Model.NAM4KM => 3

/-- `chrono::Duration::days`, in seconds. -/
def duration_days (d : Int) : Int := d * 86400

/-- `StringData = EnsembleList<String>` from `src/sources.rs`. -/
abbrev StringData := EnsembleList String

/-- `InnerMessage` from `src/messages.rs`. -/
inductive InnerMessage where
  | StringData (sd : Fwxcharts.StringData)
  | BufkitDataError (e : BufkitDataErr)
deriving DecidableEq, Repr

/-- `Message` from `src/messages.rs`: an envelope whose only operation is
extracting the payload. -/
structure Message where
  payload : InnerMessage
deriving DecidableEq, Repr

/-- Is a message a `StringData` message? -/
def isStringData : Message → Bool
  | ⟨InnerMessage.StringData _⟩ => true
  | ⟨InnerMessage.BufkitDataError _⟩ => false

/-- Number of `StringData` messages in an emission list. -/
def countStringData (msgs : List Message) : Nat :=
  (msgs.filter isStringData).length

/-- Number of error messages in an emission list. -/
def countErrors (msgs : List Message) : Nat :=
  (msgs.filter (fun m => !isStringData m)).length

/-- `FileData` from `src/sources.rs` (lines 20-26); paths are modelled as
strings. -/
structure FileData where
  site : SiteInfo
  model : String
  start : Int
  «end» : Int
  files : List String

/-- Per-file work of `load_from_files` (`src/sources.rs` lines 44-62): read the
file (`readFile` oracle, io errors already converted via `BufkitDataErr::from`),
then extract the initialization time of the first sounding (`bufkit_init`
oracle: `Except` for a `sounding_bufkit` failure of `BufkitData::init`, the
inner `Option` for `.nth(0).and_then(valid_time)`); a missing initialization
time becomes `NotEnoughData`. -/
def read_and_init (readFile : String → Except BufkitDataErr String)
    (bufkit_init : String → Except BufkitDataErr (Option Int))
    (path : String) : Except BufkitDataErr (Int × String) := do
  let contents ← readFile path
  match ← bufkit_init contents with
  | some t => pure (t, contents)
  | none => throw BufkitDataErr.notEnoughData

/-- `load_from_files` from `src/sources.rs` (lines 29-82): collect the per-file
results; the first failure short-circuits the whole batch into a single error
message, otherwise one `StringData` message carries all runs, with
`now = start`. -/
def load_from_files (readFile : String → Except BufkitDataErr String)
    (bufkit_init : String → Except BufkitDataErr (Option Int))
    (fd : FileData) : List Message :=
  let meta : MetaData :=
    { site := fd.site, model := fd.model, start := fd.start, now := fd.start,
      «end» := fd.«end» }
  match fd.files.mapM (read_and_init readFile bufkit_init) with
  | Except.ok strings => [⟨InnerMessage.StringData ⟨meta, strings⟩⟩]
  | Except.error err => [⟨InnerMessage.BufkitDataError err⟩]

/-- The init-time extraction used by the archive loaders (`src/sources.rs`
lines 126-134): `BufkitData::init(..).ok()?` turns a parse failure into `none`,
then the first sounding's valid time is taken. -/
def init_time_opt (bufkit_init : String → Except BufkitDataErr (Option Int))
    (s : String) : Option Int :=
  match bufkit_init s with
  | Except.ok o => o
  | Except.error _ => none

/-- Convert a list of raw text blocks into `(init_time, text)` run pairs,
silently dropping blocks whose init time cannot be extracted (`filter_map` in
`src/sources.rs` lines 125-136 and 209-220). -/
def runs_of_blocks (bufkit_init : String → Except BufkitDataErr (Option Int))
    (blocks : List String) : List (Int × String) :=
  blocks.filterMap (fun s => (init_time_opt bufkit_init s).map (fun t => (t, s)))

/-- Site resolution of `load_for_site_and_date_and_time` (`src/sources.rs`
lines 110-113): `station_num_for_id(..).and_then(|stn| site(stn).ok_or(NotInIndex))`. -/
def resolve_site (station_num_for_id : String → Model → Except BufkitDataErr Nat)
    (site : Nat → Option SiteInfo) (siteId : String) (model : Model) :
    Except BufkitDataErr SiteInfo :=
  (station_num_for_id siteId model).bind (fun stn =>
    match site stn with
    | some si => Except.ok si
    | none => Except.error BufkitDataErr.notInIndex)

/-- `load_for_site_and_date_and_time` from `src/sources.rs` (lines 86-159).
Oracles: `connect` (`Archive::connect`), `station_num_for_id`/`site` (index
lookups), `retrieve` (`retrieve_all_valid_in`, a function of the station
number, model and window), `bufkit_init` (the parser).  The result is the list
of messages the spawned thread sends. -/
def load_for_site_and_date_and_time
    (connect : Except BufkitDataErr Unit)
    (station_num_for_id : String → Model → Except BufkitDataErr Nat)
    (site : Nat → Option SiteInfo)
    (retrieve : Nat → Model → Int → Int → Except BufkitDataErr (List String))
    (bufkit_init : String → Except BufkitDataErr (Option Int))
    (siteId : String) (model : Model) (time : Int) (days_back : Int) :
    List Message :=
  match connect with
  | Except.error err => [⟨InnerMessage.BufkitDataError err⟩]
  | Except.ok _ =>
    let start := time - duration_days days_back
    let stop := time + duration_days (num_days model)
    match resolve_site station_num_for_id site siteId model with
    | Except.error err => [⟨InnerMessage.BufkitDataError err⟩]
    | Except.ok site_info =>
      match retrieve site_info.station_num model start stop with
      | Except.ok data =>
        let meta : MetaData :=
          { site := site_info, model := as_static_str model, start := start,
            now := time, «end» := stop }
        [⟨InnerMessage.StringData ⟨meta, runs_of_blocks bufkit_init data⟩⟩]
      | Except.error err => [⟨InnerMessage.BufkitDataError err⟩]

/-- The one message sent for a single `(site, model)` pair by the inner loop of
`load_all_sites_and_models` (`src/sources.rs` lines 206-240). -/
def pair_message (retrieve : Nat → Model → Int → Int → Except BufkitDataErr (List String))
    (bufkit_init : String → Except BufkitDataErr (Option Int))
    (now start stop : Int) (model : Model) (site_info : SiteInfo) : Message :=
  match retrieve site_info.station_num model start stop with
  | Except.ok data =>
    ⟨InnerMessage.StringData
      ⟨{ site := site_info, model := as_static_str model, start := start,
         now := now, «end» := stop }, runs_of_blocks bufkit_init data⟩⟩
  | Except.error err => ⟨InnerMessage.BufkitDataError err⟩

/-- The model loop of `load_all_sites_and_models` (`src/sources.rs` lines
193-241): a failing `sites_and_ids_for` sends one error and returns from the
thread (ending the enumeration); otherwise each listed site gets exactly one
message, then the next model is processed. -/
def lasm_loop (sites_and_ids_for : Model → Except BufkitDataErr (List (SiteInfo × String)))
    (retrieve : Nat → Model → Int → Int → Except BufkitDataErr (List String))
    (bufkit_init : String → Except BufkitDataErr (Option Int))
    (now start : Int) : List Model → List Message
  | [] => []
  | m :: rest =>
    match sites_and_ids_for m with
    | Except.error err => [⟨InnerMessage.BufkitDataError err⟩]
    | Except.ok sites_ids =>
      let stop := now + duration_days (num_days m)
      (sites_ids.map (fun p => pair_message retrieve bufkit_init now start stop m p.1))
        ++ lasm_loop sites_and_ids_for retrieve bufkit_init now start rest

/-- `load_all_sites_and_models` from `src/sources.rs` (lines 175-245). -/
def load_all_sites_and_models
    (connect : Except BufkitDataErr Unit)
    (sites_and_ids_for : Model → Except BufkitDataErr (List (SiteInfo × String)))
    (retrieve : Nat → Model → Int → Int → Except BufkitDataErr (List String))
    (bufkit_init : String → Except BufkitDataErr (Option Int))
    (now : Int) (days_back : Int) : List Message :=
  match connect with
  | Except.error err => [⟨InnerMessage.BufkitDataError err⟩]
  | Except.ok _ =>
    let start := now - duration_days days_back
    lasm_loop sites_and_ids_for retrieve bufkit_init now start Model.all

/-- One comparison step of the lead-time selection for a fixed valid time: a
first candidate is installed, a later one replaces the stored element only when
its lead time is strictly smaller (the occupied-entry branch of `merge`). -/
def minStep [ModelTimes T] (acc : Option T) (y : T) : Option T :=
  match acc with
  | none => some y
  | some c => if leadD y < leadD c then some y else some c

/-- Total form of the selection fold, starting from a first candidate. -/
def minFold [ModelTimes T] (c : T) (l : List T) : T :=
  l.foldl (fun acc y => if leadD y < leadD acc then y else acc) c

/-! Concrete instances used to exercise the theorems. -/

/-- A concrete record type carrying a valid time, a lead time and a tag
distinguishing otherwise identical records (as `AnalyzedData` does in
`src/types.rs` via its payload). -/
structure Elem where
  vt : Option Int
  lt : Option Int
  tag : Nat
deriving DecidableEq, Repr

instance : ValidTime Elem := ⟨Elem.vt⟩

instance : ModelTimes Elem := ⟨Elem.lt⟩

def siteEx : SiteInfo := ⟨1, "KXYZ"⟩

def siteEx2 : SiteInfo := ⟨2, "KABC"⟩

def metaEx : MetaData := ⟨siteEx, "GFS", 0, 0, 100⟩

def elemA1 : Elem := ⟨some 0, some 0, 1⟩

def elemA2 : Elem := ⟨some 21600, some 21600, 2⟩

def elemA3 : Elem := ⟨some 21600, some 0, 3⟩

/-- Scenario A of the spec: run 1 covers valid times 0 and +6h (leads 0, 6h),
run 2 covers +6h with lead 0. -/
def ensScenarioA : EnsembleSeries Elem :=
  ⟨metaEx, [(0, ⟨[elemA1, elemA2]⟩), (21600, ⟨[elemA3]⟩)]⟩

def mergedScenarioA : MergedSeries Elem := ⟨metaEx, ⟨[elemA1, elemA3]⟩⟩

def ensLeadNone : EnsembleSeries Elem := ⟨metaEx, [(0, ⟨[⟨some 5, none, 7⟩]⟩)]⟩

def ensSingle : EnsembleSeries Elem := ⟨metaEx, [(0, ⟨[elemA1, elemA2]⟩)]⟩

def funEx : Elem → Option Elem := fun x => if x.tag = 2 then none else some x

def readOk : String → Except BufkitDataErr String :=
  fun p => Except.ok ("RAW " ++ p)

def initOk : String → Except BufkitDataErr (Option Int) :=
  fun _ => Except.ok (some 42)

def initBad : String → Except BufkitDataErr (Option Int) :=
  fun _ => Except.error (BufkitDataErr.bufkit 3)

def fdEx : FileData := ⟨siteEx, "GFS", 10, 200, ["a", "b"]⟩

def fdOne : FileData := ⟨siteEx, "GFS", 0, 100, ["f1"]⟩

def connectOk : Except BufkitDataErr Unit := Except.ok ()

def stnOk : String → Model → Except BufkitDataErr Nat := fun _ _ => Except.ok 1

def siteLookupEx : Nat → Option SiteInfo :=
  fun n => if n = 1 then some siteEx else none

def retrieveEmpty : Nat → Model → Int → Int → Except BufkitDataErr (List String) :=
  fun _ _ _ _ => Except.ok []

def retrieveBlocks : Nat → Model → Int → Int → Except BufkitDataErr (List String) :=
  fun _ _ _ _ => Except.ok ["block1", "block2"]

def sitesOk : Model → Except BufkitDataErr (List (SiteInfo × String)) :=
  fun _ => Except.ok [(siteEx, "KXYZ"), (siteEx2, "KABC")]

/-- Retrieval oracle failing for exactly the pair (station 2, NAM). -/
def retrieveMixed : Nat → Model → Int → Int → Except BufkitDataErr (List String) :=
  fun stn m _ _ =>
    match stn, m with
    | 2, Model.NAM => Except.error (BufkitDataErr.other 9)
    | _, _ => Except.ok ["blockA"]

/-! Invariants of the valid-time pool. -/

/-- Pool well-formedness: every stored entry's valid time re-evaluates to its
key, its lead time is defined, and keys are unique (the `HashMap` invariant). -/
def PoolWF [ModelTimes T] (pool : List (Int × T)) : Prop :=
  (∀ p ∈ pool, valid_time p.2 = some p.1 ∧ (lead_time p.2).isSome = true) ∧
  (pool.map Prod.fst).Nodup

theorem poolWF_nil [ModelTimes T] : PoolWF ([] : List (Int × T)) :=
  ⟨fun _ h => absurd h (List.not_mem_nil _), List.nodup_nil⟩

theorem poolFind_mem {v : Int} {x : T} :
    ∀ {pool : List (Int × T)}, poolFind v pool = some x → (v, x) ∈ pool := by
  intro pool
  induction pool with
  | nil => intro h; simp [poolFind] at h
  | cons p rest ih =>
    intro h
    obtain ⟨k, y⟩ := p
    simp only [poolFind] at h
    by_cases hk : k = v
    · subst hk
      simp at h
      subst h
      exact List.mem_cons_self _ _
    · simp [hk] at h
      exact List.mem_cons_of_mem _ (ih h)

theorem poolFind_eq_none {v : Int} :
    ∀ {pool : List (Int × T)}, poolFind v pool = none → ∀ x : T, (v, x) ∉ pool := by
  intro pool
  induction pool with
  | nil => intro _ x h; exact absurd h (List.not_mem_nil _)
  | cons p rest ih =>
    intro h x hmem
    obtain ⟨k, y⟩ := p
    simp only [poolFind] at h
    by_cases hk : k = v
    · simp [hk] at h
    · simp [hk] at h
      rcases List.mem_cons.mp hmem with heq | hmem'
      · exact hk (congrArg Prod.fst heq).symm
      · exact ih h x hmem'

theorem mem_poolReplace {v : Int} {x : T} :
    ∀ {pool : List (Int × T)} {p : Int × T},
      p ∈ poolReplace v x pool → p = (v, x) ∨ p ∈ pool := by
  intro pool
  induction pool with
  | nil => intro p h; simp [poolReplace] at h
  | cons q rest ih =>
    intro p h
    obtain ⟨k, y⟩ := q
    simp only [poolReplace] at h
    by_cases hk : k = v
    · subst hk
      simp at h
      rcases h with h | h
      · exact Or.inl h
      · exact Or.inr (List.mem_cons_of_mem _ h)
    · simp [hk] at h
      rcases h with h | h
      · exact Or.inr (by simp [h])
      · rcases ih h with h' | h'
        · exact Or.inl h'
        · exact Or.inr (List.mem_cons_of_mem _ h')

theorem poolReplace_map_fst {v : Int} {x : T} :
    ∀ (pool : List (Int × T)),
      (poolReplace v x pool).map Prod.fst = pool.map Prod.fst := by
  intro pool
  induction pool with
  | nil => rfl
  | cons q rest ih =>
    obtain ⟨k, y⟩ := q
    simp only [poolReplace]
    by_cases hk : k = v
    · simp [hk]
    · simp [hk, ih]

theorem poolFind_append_self {v : Int} {x : T} :
    ∀ {pool : List (Int × T)}, poolFind v pool = none →
      poolFind v (pool ++ [(v, x)]) = some x := by
  intro pool
  induction pool with
  | nil => intro _; simp [poolFind]
  | cons q rest ih =>
    intro h
    obtain ⟨k, y⟩ := q
    simp only [poolFind] at h ⊢
    by_cases hk : k = v
    · simp [hk] at h
    · simpa [hk] using ih (by simpa [hk] using h)

theorem poolFind_append_ne {v w : Int} {x : T} (hvw : w ≠ v) :
    ∀ (pool : List (Int × T)),
      poolFind v (pool ++ [(w, x)]) = poolFind v pool := by
  intro pool
  induction pool with
  | nil => simp [poolFind, hvw]
  | cons q rest ih =>
    obtain ⟨k, y⟩ := q
    simp only [List.cons_append, poolFind]
    by_cases hk : k = v
    · simp [hk]
    · simp [hk, ih]

theorem poolFind_replace_ne {v w : Int} {x : T} (hvw : w ≠ v) :
    ∀ (pool : List (Int × T)),
      poolFind v (poolReplace w x pool) = poolFind v pool := by
  intro pool
  induction pool with
  | nil => rfl
  | cons q rest ih =>
    obtain ⟨k, y⟩ := q
    simp only [poolReplace]
    by_cases hk : k = w
    · subst hk
      simp [poolFind, hvw]
    · simp only [hk, if_false, poolFind]
      by_cases hk' : k = v
      · simp [hk']
      · simp [hk', ih]

theorem poolFind_replace_self {v : Int} {x cmp : T} :
    ∀ {pool : List (Int × T)}, poolFind v pool = some cmp →
      poolFind v (poolReplace v x pool) = some x := by
  intro pool
  induction pool with
  | nil => intro h; simp [poolFind] at h
  | cons q rest ih =>
    intro h
    obtain ⟨k, y⟩ := q
    simp only [poolFind] at h
    by_cases hk : k = v
    · subst hk
      simp [poolReplace, poolFind]
    · simp [hk] at h
      simp [poolReplace, hk, poolFind, ih h]

theorem poolStep_isSome [ModelTimes T] {pool : List (Int × T)} (hwf : PoolWF pool)
    (x : T) : (poolStep pool x).isSome = true := by
  unfold poolStep
  split
  next v l hv hl =>
    split
    next cmp hf =>
      have hsome := (hwf.1 _ (poolFind_mem hf)).2
      rcases hlc : lead_time cmp with _ | lc
      · rw [hlc] at hsome; simp at hsome
      · simp [hlc]
    next hf => simp
  next => simp

theorem poolStep_wf [ModelTimes T] {pool pool' : List (Int × T)} {x : T}
    (hwf : PoolWF pool) (h : poolStep pool x = some pool') : PoolWF pool' := by
  unfold poolStep at h
  split at h
  next v l hv hl =>
    split at h
    next cmp hf =>
      split at h
      next lc hlc =>
        rw [Option.some.injEq] at h
        subst h
        split
        · -- strictly smaller lead time replaces the stored entry
          refine ⟨?_, ?_⟩
          · intro p hp
            rcases mem_poolReplace hp with hp' | hp'
            · subst hp'
              exact ⟨hv, by simp [hl]⟩
            · exact hwf.1 _ hp'
          · rw [poolReplace_map_fst]
            exact hwf.2
        · exact hwf
      next hlc => exact absurd h (by simp)
    next hf =>
      rw [Option.some.injEq] at h
      subst h
      refine ⟨?_, ?_⟩
      · intro p hp
        rcases List.mem_append.mp hp with hp' | hp'
        · exact hwf.1 _ hp'
        · simp at hp'
          subst hp'
          exact ⟨hv, by simp [hl]⟩
      · have hnotin : v ∉ pool.map Prod.fst := by
          intro hvin
          rcases List.mem_map.mp hvin with ⟨p, hp, hfst⟩
          exact absurd (show (v, p.2) ∈ pool by
              have hpv : p = (v, p.2) := by
                obtain ⟨a, b⟩ := p
                simp at hfst
                simp [hfst]
              exact hpv ▸ hp)
            (poolFind_eq_none hf p.2)
        rw [List.map_append]
        refine List.Nodup.append hwf.2 (by simp) ?_
        intro a ha hb
        simp at hb
        subst hb
        exact hnotin ha
  next =>
    rw [Option.some.injEq] at h
    subst h
    exact hwf

theorem poolStep_mem [ModelTimes T] {pool pool' : List (Int × T)} {x : T}
    (h : poolStep pool x = some pool') :
    ∀ p ∈ pool', p ∈ pool ∨ p.2 = x := by
  unfold poolStep at h
  split at h
  next v l hv hl =>
    split at h
    next cmp hf =>
      split at h
      next lc hlc =>
        rw [Option.some.injEq] at h
        subst h
        split
        · intro p hp
          rcases mem_poolReplace hp with hp' | hp'
          · exact Or.inr (by simp [hp'])
          · exact Or.inl hp'
        · exact fun p hp => Or.inl hp
      next hlc => exact absurd h (by simp)
    next hf =>
      rw [Option.some.injEq] at h
      subst h
      intro p hp
      rcases List.mem_append.mp hp with hp' | hp'
      · exact Or.inl hp'
      · simp at hp'
        exact Or.inr (by simp [hp'])
  next =>
    rw [Option.some.injEq] at h
    subst h
    exact fun p hp => Or.inl hp

theorem foldPool_some_wf [ModelTimes T] :
    ∀ (l : List T) (pool : List (Int × T)), PoolWF pool →
      ∃ pool', l.foldlM poolStep pool = some pool' ∧ PoolWF pool' := by
  intro l
  induction l with
  | nil => intro pool hwf; exact ⟨pool, rfl, hwf⟩
  | cons x rest ih =>
    intro pool hwf
    rcases Option.isSome_iff_exists.mp (poolStep_isSome hwf x) with ⟨pool₁, h₁⟩
    have hwf₁ := poolStep_wf hwf h₁
    rcases ih pool₁ hwf₁ with ⟨pool', h', hwf'⟩
    exact ⟨pool', by simpa [List.foldlM_cons, h₁] using h', hwf'⟩

theorem foldPool_mem [ModelTimes T] :
    ∀ (l : List T) (pool pool' : List (Int × T)),
      l.foldlM poolStep pool = some pool' →
      ∀ p ∈ pool', p ∈ pool ∨ p.2 ∈ l := by
  intro l
  induction l with
  | nil =>
    intro pool pool' h p hp
    simp [List.foldlM_nil] at h
    exact Or.inl (h ▸ hp)
  | cons x rest ih =>
    intro pool pool' h p hp
    rw [List.foldlM_cons] at h
    rcases hstep : poolStep pool x with _ | pool₁ <;> rw [hstep] at h
    · simp at h
    · simp at h
      rcases ih pool₁ pool' h p hp with hp' | hp'
      · rcases poolStep_mem hstep p hp' with hp'' | hp''
        · exact Or.inl hp''
        · exact Or.inr (by simp [hp''])
      · exact Or.inr (List.mem_cons_of_mem _ hp')

theorem foldlM_option_append (f : β → α → Option β) :
    ∀ (l₁ : List α) (l₂ : List α) (b : β),
      (l₁ ++ l₂).foldlM f b = (l₁.foldlM f b).bind (fun b' => l₂.foldlM f b') := by
  intro l₁ l₂ b
  simp [List.foldlM_append]

theorem mergeRuns_eq_foldlM [ModelTimes T] :
    ∀ (runs : List (Int × TimeSeries T)) (pool : List (Int × T)),
      mergeRuns runs pool = (runsElems runs).foldlM poolStep pool := by
  intro runs
  induction runs with
  | nil => intro pool; rfl
  | cons r rest ih =>
    intro pool
    show (r.2.data.foldlM poolStep pool).bind
        (fun p => rest.foldlM (fun p r => r.2.data.foldlM poolStep p) p) = _
    rw [runsElems, List.flatMap_cons, foldlM_option_append]
    rcases h : r.2.data.foldlM poolStep pool with _ | pool₁
    · simp
    · simpa using ih pool₁

/-! The valid-time sort. -/

theorem vtLe_total [ValidTime T] (a b : T) : vtLe a b = true ∨ vtLe b a = true := by
  unfold vtLe
  rcases valid_time a with _ | x <;> rcases valid_time b with _ | y <;> simp
  exact Int.le_total x y

theorem vtLe_trans [ValidTime T] {a b c : T} (hab : vtLe a b = true)
    (hbc : vtLe b c = true) : vtLe a c = true := by
  rcases ha : valid_time a with _ | x
  · simp [vtLe, ha]
  · rcases hb : valid_time b with _ | y
    · simp [vtLe, ha, hb] at hab
    · rcases hc : valid_time c with _ | z
      · simp [vtLe, hb, hc] at hbc
      · simp [vtLe, ha, hb] at hab
        simp [vtLe, hb, hc] at hbc
        simp [vtLe, ha, hc]
        exact Int.le_trans hab hbc

theorem sortInsert_perm [ValidTime T] (x : T) :
    ∀ (l : List T), (sortInsert x l).Perm (x :: l) := by
  intro l
  induction l with
  | nil => simp [sortInsert]
  | cons y ys ih =>
    unfold sortInsert
    split
    · exact List.Perm.refl _
    · exact (List.Perm.cons y ih).trans (List.Perm.swap x y ys)

theorem sort_perm [ValidTime T] :
    ∀ (l : List T), (sort_by_valid_time l).Perm l := by
  intro l
  induction l with
  | nil => simp [sort_by_valid_time]
  | cons x xs ih =>
    unfold sort_by_valid_time
    exact (sortInsert_perm x _).trans (List.Perm.cons x ih)

theorem mem_sortInsert [ValidTime T] {x z : T} {l : List T} :
    z ∈ sortInsert x l ↔ z = x ∨ z ∈ l := by
  rw [(sortInsert_perm x l).mem_iff]
  simp

theorem sortInsert_sorted [ValidTime T] {x : T} :
    ∀ {l : List T}, l.Pairwise (fun a b => vtLe a b = true) →
      (sortInsert x l).Pairwise (fun a b => vtLe a b = true) := by
  intro l
  induction l with
  | nil => intro _; simp [sortInsert]
  | cons y ys ih =>
    intro hp
    rcases List.pairwise_cons.mp hp with ⟨hy, hys⟩
    unfold sortInsert
    split
    next hxy =>
      refine List.pairwise_cons.mpr ⟨?_, hp⟩
      intro b hb
      rcases List.mem_cons.mp hb with hb' | hb'
      · exact hb' ▸ hxy
      · exact vtLe_trans hxy (hy b hb')
    next hxy =>
      refine List.pairwise_cons.mpr ⟨?_, ih hys⟩
      intro b hb
      rcases mem_sortInsert.mp hb with hb' | hb'
      · rw [hb']
        rcases vtLe_total x y with h | h
        · exact absurd h hxy
        · exact h
      · exact hy b hb'

theorem sort_sorted [ValidTime T] :
    ∀ (l : List T),
      (sort_by_valid_time l).Pairwise (fun a b => vtLe a b = true) := by
  intro l
  induction l with
  | nil => simp [sort_by_valid_time]
  | cons x xs ih =>
    unfold sort_by_valid_time
    exact sortInsert_sorted ih

theorem pairwise_vtLt_of [ValidTime T] {l : List T}
    (hle : l.Pairwise (fun a b => vtLe a b = true))
    (hne : l.Pairwise (fun a b : T => valid_time a ≠ valid_time b))
    (hsome : ∀ x ∈ l, (valid_time x).isSome = true) :
    l.Pairwise vtLt := by
  have hand := hle.and hne
  refine List.Pairwise.imp_of_mem ?_ hand
  intro a b ha hb hab
  rcases Option.isSome_iff_exists.mp (hsome a ha) with ⟨va, hva⟩
  rcases Option.isSome_iff_exists.mp (hsome b hb) with ⟨vb, hvb⟩
  refine ⟨va, vb, hva, hvb, ?_⟩
  have hle' := hab.1
  rw [vtLe, hva, hvb] at hle'
  simp at hle'
  have hne' : va ≠ vb := by
    intro hvab
    exact hab.2 (by rw [hva, hvb, hvab])
  exact lt_of_le_of_ne hle' hne'

theorem countP_le_one_of_pairwise_ne [ValidTime T] {l : List T}
    (h : l.Pairwise (fun a b : T => valid_time a ≠ valid_time b)) (v : Int) :
    l.countP (fun x => valid_time x == some v) ≤ 1 := by
  induction l with
  | nil => simp
  | cons a rest ih =>
    rcases List.pairwise_cons.mp h with ⟨ha, hrest⟩
    rw [List.countP_cons]
    by_cases hp : (valid_time a == some v) = true
    · have hva : valid_time a = some v := by simpa using hp
      have hzero : rest.countP (fun x => valid_time x == some v) = 0 := by
        rw [List.countP_eq_zero]
        intro b hb
        simp only [beq_iff_eq]
        intro hvb
        exact ha b hb (by rw [hva, hvb])
      simp [hp, hzero]
    · simp only [hp, if_false]
      simpa using ih hrest

/-! Tracking the selected element for a fixed valid time. -/

theorem poolFind_of_mem [ModelTimes T] :
    ∀ {pool : List (Int × T)} {v : Int} {x : T},
      (pool.map Prod.fst).Nodup → (v, x) ∈ pool → poolFind v pool = some x := by
  intro pool
  induction pool with
  | nil => intro v x _ hmem; exact absurd hmem (List.not_mem_nil _)
  | cons q rest ih =>
    intro v x hnd hmem
    obtain ⟨k, y⟩ := q
    rw [List.map_cons] at hnd
    rcases List.nodup_cons.mp hnd with ⟨hknotin, hndrest⟩
    rcases List.mem_cons.mp hmem with heq | hmem'
    · obtain ⟨h1, h2⟩ := Prod.mk.injEq .. ▸ heq
      simp [poolFind, h1.symm, h2]
    · have hkv : k ≠ v := by
        intro hkv
        subst hkv
        exact hknotin (List.mem_map.mpr ⟨(k, x), hmem', rfl⟩)
      simp [poolFind, hkv, ih hndrest hmem']

theorem pool_pairwise_ne [ModelTimes T] {pool : List (Int × T)} (hwf : PoolWF pool) :
    (pool.map Prod.snd).Pairwise (fun a b : T => valid_time a ≠ valid_time b) := by
  rw [List.pairwise_map]
  have hkeys : pool.Pairwise (fun p q : Int × T => p.1 ≠ q.1) := by
    have := hwf.2
    rw [List.Nodup, List.pairwise_map] at this
    exact this
  refine List.Pairwise.imp_of_mem ?_ hkeys
  intro p q hp hq hne
  rw [(hwf.1 p hp).1, (hwf.1 q hq).1]
  simp [hne]

theorem foldl_minStep_some [ModelTimes T] :
    ∀ (l : List T) (c : T), l.foldl minStep (some c) = some (minFold c l) := by
  intro l
  induction l with
  | nil => intro c; rfl
  | cons y ys ih =>
    intro c
    show ys.foldl minStep (minStep (some c) y) = _
    unfold minStep minFold
    rw [List.foldl_cons]
    by_cases hcmp : leadD y < leadD c
    · simp only [if_pos hcmp]
      exact ih y
    · simp only [if_neg hcmp]
      exact ih c

theorem minFold_spec [ModelTimes T] :
    ∀ (l : List T) (a : T),
      (minFold a l = a ∧ ∀ y ∈ l, leadD a ≤ leadD y) ∨
      (∃ pre x post, l = pre ++ x :: post ∧ minFold a l = x ∧
        leadD x < leadD a ∧ (∀ y ∈ pre, leadD x < leadD y) ∧
        (∀ y ∈ post, leadD x ≤ leadD y)) := by
  intro l
  induction l with
  | nil => intro a; exact Or.inl ⟨rfl, by simp⟩
  | cons y ys ih =>
    intro a
    have hstep : minFold a (y :: ys) = minFold (if leadD y < leadD a then y else a) ys := by
      unfold minFold
      rw [List.foldl_cons]
    by_cases hcmp : leadD y < leadD a
    · rw [if_pos hcmp] at hstep
      rcases ih y with ⟨heq, hall⟩ | ⟨pre, x, post, hsplit, heq, hlt, hpre, hpost⟩
      · refine Or.inr ⟨[], y, ys, by simp, by rw [hstep, heq], hcmp, by simp, hall⟩
      · refine Or.inr ⟨y :: pre, x, post, by simp [hsplit], by rw [hstep, heq], ?_, ?_, hpost⟩
        · exact lt_trans hlt hcmp
        · intro z hz
          rcases List.mem_cons.mp hz with hz' | hz'
          · exact hz' ▸ hlt
          · exact hpre z hz'
    · rw [if_neg hcmp] at hstep
      push_neg at hcmp
      rcases ih a with ⟨heq, hall⟩ | ⟨pre, x, post, hsplit, heq, hlt, hpre, hpost⟩
      · refine Or.inl ⟨by rw [hstep, heq], ?_⟩
        intro z hz
        rcases List.mem_cons.mp hz with hz' | hz'
        · exact hz' ▸ hcmp
        · exact hall z hz'
      · refine Or.inr ⟨y :: pre, x, post, by simp [hsplit], by rw [hstep, heq], hlt, ?_, hpost⟩
        intro z hz
        rcases List.mem_cons.mp hz with hz' | hz'
        · exact hz' ▸ lt_of_lt_of_le hlt hcmp
        · exact hpre z hz'

theorem minStep_none_eq [ModelTimes T] (y : T) : minStep none y = some y := rfl

theorem minStep_some_eq [ModelTimes T] (c y : T) :
    minStep (some c) y = if leadD y < leadD c then some y else some c := rfl

theorem poolStep_find [ModelTimes T] {pool pool' : List (Int × T)} {x : T}
    (h : poolStep pool x = some pool') (v : Int) :
    poolFind v pool' =
      if valid_time x == some v && (lead_time x).isSome then
        minStep (poolFind v pool) x
      else poolFind v pool := by
  unfold poolStep at h
  split at h
  next w l hv hl =>
    split at h
    next cmp hf =>
      split at h
      next lc hlc =>
        rw [Option.some.injEq] at h
        subst h
        by_cases hvw : w = v
        · rw [hvw] at hv hf ⊢
          have hcond : (valid_time x == some v && (lead_time x).isSome) = true := by
            simp [hv, hl]
          rw [if_pos hcond, hf, minStep_some_eq]
          have hleadx : leadD x = l := by simp [leadD, hl]
          have hleadc : leadD cmp = lc := by simp [leadD, hlc]
          rw [hleadx, hleadc]
          by_cases hcmp : l < lc
          · rw [if_pos hcmp, if_pos hcmp]
            exact poolFind_replace_self hf
          · rw [if_neg hcmp, if_neg hcmp]
            exact hf
        · have hcnot : ¬((valid_time x == some v && (lead_time x).isSome) = true) := by
            simp [hv, hl, hvw]
          rw [if_neg hcnot]
          by_cases hcmp : l < lc
          · rw [if_pos hcmp]
            exact poolFind_replace_ne hvw pool
          · rw [if_neg hcmp]
      next hlc => exact absurd h (by simp)
    next hf =>
      rw [Option.some.injEq] at h
      subst h
      by_cases hvw : w = v
      · rw [hvw] at hv hf ⊢
        have hcond : (valid_time x == some v && (lead_time x).isSome) = true := by
          simp [hv, hl]
        rw [if_pos hcond, hf, minStep_none_eq]
        exact poolFind_append_self hf
      · have hcnot : ¬((valid_time x == some v && (lead_time x).isSome) = true) := by
          simp [hv, hl, hvw]
        rw [if_neg hcnot]
        exact poolFind_append_ne hvw pool
  next hcatch =>
    rw [Option.some.injEq] at h
    subst h
    have hcond : ¬((valid_time x == some v && (lead_time x).isSome) = true) := by
      intro hc
      rw [Bool.and_eq_true] at hc
      rcases Option.isSome_iff_exists.mp hc.2 with ⟨l, hl⟩
      exact hcatch v l (by simpa using hc.1) hl
    rw [if_neg hcond]

theorem poolFind_foldPool [ModelTimes T] (v : Int) :
    ∀ (l : List T) (pool pool' : List (Int × T)), PoolWF pool →
      l.foldlM poolStep pool = some pool' →
      poolFind v pool' = (candidates v l).foldl minStep (poolFind v pool) := by
  intro l
  induction l with
  | nil =>
    intro pool pool' _ h
    have hpp : pool = pool' := by
      have h' : (some pool : Option (List (Int × T))) = some pool' := h
      exact Option.some.inj h'
    subst hpp
    simp [candidates]
  | cons x rest ih =>
    intro pool pool' hwf h
    rw [List.foldlM_cons] at h
    rcases hstep : poolStep pool x with _ | pool₁ <;> rw [hstep] at h
    · simp at h
    · simp at h
      have hwf₁ := poolStep_wf hwf hstep
      have hrec := ih pool₁ pool' hwf₁ h
      rw [hrec]
      unfold candidates
      rw [List.filter_cons]
      have hfind := poolStep_find hstep v
      by_cases hcond : (valid_time x == some v && (lead_time x).isSome) = true
      · rw [if_pos hcond, List.foldl_cons, hfind, if_pos hcond]
      · rw [if_neg hcond, hfind, if_neg hcond]

/-! Characterization of `merge`. -/

theorem merge_some_elim [ModelTimes T] {e : EnsembleSeries T} {out : MergedSeries T}
    (h : merge e = some out) :
    ∃ pool', (runsElems e.data).foldlM poolStep [] = some pool' ∧ PoolWF pool' ∧
      out = ⟨e.meta, ⟨sort_by_valid_time (pool'.map Prod.snd)⟩⟩ := by
  rcases foldPool_some_wf (runsElems e.data) [] poolWF_nil with ⟨pool', hfold, hwf⟩
  refine ⟨pool', hfold, hwf, ?_⟩
  unfold merge at h
  rw [mergeRuns_eq_foldlM, hfold] at h
  simp only [Option.map_some', Option.some.injEq] at h
  exact h.symm

/-- C10: the `unwrap` of the stored entry's lead time inside the
occupied-entry branch of `merge` never panics: every element held in the
valid-time pool was inserted only after its `lead_time()` returned `Some`, and
`lead_time` is a pure function of the element, so re-querying it always yields
`Some`.  In this embedding a panic is `merge e = none`, and `merge` always
returns `some`. -/
theorem merge_unwrap_never_panics [ModelTimes T] (e : EnsembleSeries T) :
    (merge e).isSome = true := by
  unfold merge
  rw [mergeRuns_eq_foldlM]
  rcases foldPool_some_wf (runsElems e.data) [] poolWF_nil with ⟨pool', h, _⟩
  rw [h]
  simp

/-- C1: for every `EnsembleSeries`, the `TimeSeries` inside the `MergedSeries`
returned by `merge` is sorted strictly ascending by valid time, contains at
most one element per distinct valid time value present in the input (every
output element is one of the input elements), and the `MergedSeries` carries
the input's `MetaData` unchanged. -/
theorem merge_sorted_unique_meta [ModelTimes T] (e : EnsembleSeries T)
    (out : MergedSeries T) (h : merge e = some out) :
    out.meta = e.meta ∧
    out.data.data.Pairwise vtLt ∧
    (∀ v : Int, out.data.data.countP (fun x => valid_time x == some v) ≤ 1) ∧
    (∀ x ∈ out.data.data, ∃ r ∈ e.data, x ∈ r.2.data) := by
  rcases merge_some_elim h with ⟨pool', hfold, hwf, rfl⟩
  have hperm := sort_perm (pool'.map Prod.snd)
  have hne : (sort_by_valid_time (pool'.map Prod.snd)).Pairwise
      (fun a b : T => valid_time a ≠ valid_time b) :=
    (hperm.symm.pairwise_iff (fun hab => Ne.symm hab)).mp (pool_pairwise_ne hwf)
  have hsome : ∀ x ∈ sort_by_valid_time (pool'.map Prod.snd),
      (valid_time x).isSome = true := by
    intro x hx
    rcases List.mem_map.mp (hperm.mem_iff.mp hx) with ⟨p, hp, rfl⟩
    rw [(hwf.1 p hp).1]
    rfl
  refine ⟨rfl, ?_, ?_, ?_⟩
  · exact pairwise_vtLt_of (sort_sorted _) hne hsome
  · intro v
    exact countP_le_one_of_pairwise_ne hne v
  · intro x hx
    rcases List.mem_map.mp (hperm.mem_iff.mp hx) with ⟨p, hp, rfl⟩
    rcases foldPool_mem _ _ _ hfold p hp with hp' | hp'
    · exact absurd hp' (List.not_mem_nil p)
    · rcases List.mem_flatMap.mp hp' with ⟨r, hr, hmem⟩
      exact ⟨r, hr, hmem⟩

theorem merge_lead_none_skipped [ModelTimes T] :
    ∀ (l : List T) (pool : List (Int × T)), (∀ x ∈ l, lead_time x = none) →
      l.foldlM poolStep pool = some pool := by
  intro l
  induction l with
  | nil => intro pool _; rfl
  | cons x rest ih =>
    intro pool hall
    rw [List.foldlM_cons]
    have hx : lead_time x = none := hall x (List.mem_cons_self _ _)
    have hstep : poolStep pool x = some pool := by
      unfold poolStep
      split
      next v l hv hl => rw [hx] at hl; cases hl
      next => rfl
    rw [hstep]
    show rest.foldlM poolStep pool = some pool
    exact ih pool (fun y hy => hall y (List.mem_cons_of_mem _ hy))

/-- C3: `merge` never fails; every input element lacking a valid time or a
lead time is silently dropped, an empty `EnsembleSeries` produces an empty
`MergedSeries`, and a series in which every element lacks a lead time also
produces an empty `MergedSeries` — in each case a normal value, never an
error. -/
theorem merge_total_drops_undefined [ModelTimes T] (e : EnsembleSeries T) :
    (e.data = [] → merge e = some ⟨e.meta, ⟨[]⟩⟩) ∧
    ((∀ r ∈ e.data, ∀ x ∈ r.2.data, lead_time x = none) →
      merge e = some ⟨e.meta, ⟨[]⟩⟩) ∧
    (∀ out, merge e = some out →
      ∀ x ∈ out.data.data, (valid_time x).isSome = true ∧ (lead_time x).isSome = true) := by
  refine ⟨?_, ?_, ?_⟩
  · intro hempty
    unfold merge
    rw [mergeRuns_eq_foldlM, hempty]
    rfl
  · intro hall
    unfold merge
    rw [mergeRuns_eq_foldlM]
    have hnone : ∀ x ∈ runsElems e.data, lead_time x = none := by
      intro x hx
      rcases List.mem_flatMap.mp hx with ⟨r, hr, hmem⟩
      exact hall r hr x hmem
    rw [merge_lead_none_skipped (runsElems e.data) [] hnone]
    rfl
  · intro out hout x hx
    rcases merge_some_elim hout with ⟨pool', hfold, hwf, rfl⟩
    rcases List.mem_map.mp ((sort_perm _).mem_iff.mp hx) with ⟨p, hp, rfl⟩
    exact ⟨by rw [(hwf.1 p hp).1]; rfl, (hwf.1 p hp).2⟩

theorem foldPool_fresh_append [ModelTimes T] :
    ∀ (l : List T) (pool : List (Int × T)), PoolWF pool →
      (∀ x ∈ l, (valid_time x).isSome = true ∧ (lead_time x).isSome = true) →
      l.Pairwise (fun a b : T => valid_time a ≠ valid_time b) →
      (∀ x ∈ l, ∀ p ∈ pool, valid_time x ≠ some p.1) →
      ∃ pool', l.foldlM poolStep pool = some pool' ∧
        pool'.map Prod.snd = pool.map Prod.snd ++ l := by
  intro l
  induction l with
  | nil => intro pool _ _ _ _; exact ⟨pool, rfl, by simp⟩
  | cons x rest ih =>
    intro pool hwf hdef hpw hfresh
    rcases Option.isSome_iff_exists.mp (hdef x (List.mem_cons_self _ _)).1 with ⟨v, hv⟩
    rcases Option.isSome_iff_exists.mp (hdef x (List.mem_cons_self _ _)).2 with ⟨lx, hl⟩
    have hfind : poolFind v pool = none := by
      rcases hfd : poolFind v pool with _ | y
      · rfl
      · have hmem := poolFind_mem hfd
        have hne := hfresh x (List.mem_cons_self _ _) (v, y) hmem
        exact absurd hv hne
    have hstep : poolStep pool x = some (pool ++ [(v, x)]) := by
      unfold poolStep
      rw [hv, hl]
      simp [hfind]
    have hwf' : PoolWF (pool ++ [(v, x)]) := poolStep_wf hwf hstep
    have hdef' : ∀ z ∈ rest, (valid_time z).isSome = true ∧ (lead_time z).isSome = true :=
      fun z hz => hdef z (List.mem_cons_of_mem _ hz)
    have hpw' := (List.pairwise_cons.mp hpw).2
    have hhead := (List.pairwise_cons.mp hpw).1
    have hfresh' : ∀ z ∈ rest, ∀ p ∈ pool ++ [(v, x)], valid_time z ≠ some p.1 := by
      intro z hz p hp
      rcases List.mem_append.mp hp with hp' | hp'
      · exact hfresh z (List.mem_cons_of_mem _ hz) p hp'
      · simp at hp'
        subst hp'
        intro hvz
        exact hhead z hz (by rw [hv, hvz])
    rcases ih (pool ++ [(v, x)]) hwf' hdef' hpw' hfresh' with ⟨pool', hfold', hmap⟩
    refine ⟨pool', ?_, ?_⟩
    · rw [List.foldlM_cons, hstep]
      simpa using hfold'
    · rw [hmap]
      simp

/-- C5: merging an `EnsembleSeries` with a single run whose elements all have
defined valid and lead times and pairwise distinct valid times yields a
`MergedSeries` whose data equals that run's elements up to reordering by
ascending valid time. -/
theorem merge_single_run_identity [ModelTimes T] (e : EnsembleSeries T)
    (it : Int) (ts : TimeSeries T)
    (h1 : e.data = [(it, ts)])
    (h2 : ∀ x ∈ ts.data, (valid_time x).isSome = true ∧ (lead_time x).isSome = true)
    (h3 : ts.data.Pairwise (fun a b : T => valid_time a ≠ valid_time b)) :
    ∃ out, merge e = some out ∧ out.data.data.Perm ts.data ∧
      out.data.data.Pairwise vtLt := by
  have hre : runsElems e.data = ts.data := by rw [h1]; simp [runsElems]
  rcases foldPool_fresh_append ts.data [] poolWF_nil h2 h3 (by simp) with
    ⟨pool', hfold, hmap⟩
  have hmap' : pool'.map Prod.snd = ts.data := by simpa using hmap
  refine ⟨⟨e.meta, ⟨sort_by_valid_time (pool'.map Prod.snd)⟩⟩, ?_, ?_, ?_⟩
  · unfold merge
    rw [mergeRuns_eq_foldlM, hre, hfold]
    rfl
  · rw [hmap']
    exact sort_perm ts.data
  · rw [hmap']
    have hperm := sort_perm ts.data
    refine pairwise_vtLt_of (sort_sorted _) ?_ ?_
    · exact (hperm.symm.pairwise_iff (fun hab => Ne.symm hab)).mp h3
    · intro z hz
      exact (h2 z (hperm.mem_iff.mp hz)).1

/-- C2: the element `merge` selects for a valid time `v` has lead time less
than or equal to that of every input element with valid time `v` (and a
defined lead time — an element without one has no lead time to compare and is
dropped); when several candidates share the minimal lead time, the first one
in input iteration order (runs in order, elements within a run in order) is
retained: every candidate strictly before the selected one has a strictly
greater lead time. -/
theorem merge_min_lead_first_seen [ModelTimes T] (e : EnsembleSeries T)
    (out : MergedSeries T) (h : merge e = some out) :
    ∀ x ∈ out.data.data, ∀ v : Int, valid_time x = some v →
      ∃ pre post, candidates v (runsElems e.data) = pre ++ x :: post ∧
        (∀ y ∈ pre, leadD x < leadD y) ∧
        (∀ y ∈ candidates v (runsElems e.data), leadD x ≤ leadD y) ∧
        (∀ y ∈ runsElems e.data, valid_time y = some v →
          ∀ ly, lead_time y = some ly → leadD x ≤ ly) := by
  rcases merge_some_elim h with ⟨pool', hfold, hwf, rfl⟩
  intro x hx v hv
  rcases List.mem_map.mp ((sort_perm _).mem_iff.mp hx) with ⟨p, hp, rfl⟩
  have hkey : p.1 = v := by
    have hvt := (hwf.1 p hp).1
    rw [hv] at hvt
    exact Option.some.inj hvt.symm
  have hfind : poolFind v pool' = some p.2 := by
    have hpve : p = (v, p.2) := Prod.ext hkey rfl
    exact poolFind_of_mem hwf.2 (hpve ▸ hp)
  have htrack := poolFind_foldPool v (runsElems e.data) [] pool' poolWF_nil hfold
  rw [hfind] at htrack
  have hnilfind : poolFind v ([] : List (Int × T)) = none := rfl
  rw [hnilfind] at htrack
  obtain ⟨pre, post, hsp, hpre, hallc⟩ :
      ∃ pre post, candidates v (runsElems e.data) = pre ++ p.2 :: post ∧
        (∀ y ∈ pre, leadD p.2 < leadD y) ∧
        (∀ y ∈ candidates v (runsElems e.data), leadD p.2 ≤ leadD y) := by
    rcases hc : candidates v (runsElems e.data) with _ | ⟨c, cs⟩
    · rw [hc] at htrack
      simp at htrack
    · rw [hc] at htrack
      rw [List.foldl_cons, minStep_none_eq, foldl_minStep_some] at htrack
      have hxeq : p.2 = minFold c cs := Option.some.inj htrack
      rcases minFold_spec cs c with ⟨heq, hall⟩ |
        ⟨pre, x', post, hsplit, heq, hlt, hpre, hpost⟩
      · have hx2 : p.2 = c := by rw [hxeq, heq]
        refine ⟨[], cs, by rw [hx2]; rfl, by simp, ?_⟩
        intro y hy
        rcases List.mem_cons.mp hy with hy' | hy'
        · rw [hy', hx2]
        · rw [hx2]
          exact hall y hy'
      · have hx2 : p.2 = x' := by rw [hxeq, heq]
        refine ⟨c :: pre, post, by rw [hsplit, hx2]; rfl, ?_, ?_⟩
        · intro y hy
          rcases List.mem_cons.mp hy with hy' | hy'
          · rw [hy', hx2]
            exact hlt
          · rw [hx2]
            exact hpre y hy'
        · intro y hy
          rw [hsplit] at hy
          rw [hx2]
          rcases List.mem_cons.mp hy with hy1 | hy1
          · rw [hy1]
            exact le_of_lt hlt
          · rcases List.mem_append.mp hy1 with hy2 | hy2
            · exact le_of_lt (hpre y hy2)
            · rcases List.mem_cons.mp hy2 with hy3 | hy3
              · rw [hy3]
              · exact hpost y hy3
  refine ⟨pre, post, hsp, hpre, hallc, ?_⟩
  intro y hy hvy ly hly
  have hyc : y ∈ candidates v (runsElems e.data) :=
    List.mem_filter.mpr ⟨hy, by simp [hvy, hly]⟩
  have hle := hallc y hyc
  rwa [show leadD y = ly by simp [leadD, hly]] at hle

/-- C4: `filter_map_inner` applies `func` to every element of every run's
inner `TimeSeries`, keeps exactly the elements on which `func` returns `Some`,
drops any run whose filtered inner series is empty (so every surviving run has
inner length at least 1), and returns the input `MetaData` unchanged. -/
theorem filter_map_inner_spec [ValidTime T] [ValidTime U] (e : EnsembleSeries T)
    (f : T → Option U) :
    (filter_map_inner e f).meta = e.meta ∧
    (∀ p ∈ (filter_map_inner e f).data, 1 ≤ p.2.data.length) ∧
    ((filter_map_inner e f).data.map (fun p => (p.1, p.2.data)) =
      (e.data.map (fun p => (p.1, p.2.data.filterMap f))).filter
        (fun p => !p.2.isEmpty)) := by
  refine ⟨rfl, ?_, ?_⟩
  · intro p hp
    unfold filter_map_inner at hp
    simp only at hp
    rcases List.mem_filterMap.mp hp with ⟨q, hq, hfq⟩
    by_cases hemp : (q.2.data.filterMap f).isEmpty = true
    · rw [if_pos hemp] at hfq
      cases hfq
    · rw [if_neg hemp] at hfq
      have hp2 : p.2.data = q.2.data.filterMap f := by
        rw [(Option.some.inj hfq).symm]
      rw [hp2]
      have hne : q.2.data.filterMap f ≠ [] := by
        intro h0
        exact hemp (by simp [h0])
      exact List.length_pos.mpr hne
  · unfold filter_map_inner
    simp only
    induction e.data with
    | nil => rfl
    | cons q rest ih =>
      rw [List.filterMap_cons, List.map_cons, List.filter_cons]
      by_cases hemp : (q.2.data.filterMap f).isEmpty = true
      · rw [if_pos hemp]
        simp only [hemp, Bool.not_true, if_false]
        exact ih
      · rw [if_neg hemp]
        rw [List.map_cons]
        rw [Bool.not_eq_true] at hemp
        simp only [hemp, Bool.not_false, if_true]
        rw [ih]

/-! `Result`-collection behaviour of the file loader. -/

theorem mapM_except_error {α β ε : Type} (f : α → Except ε β) :
    ∀ (l : List α), (∃ a ∈ l, ∃ er, f a = Except.error er) →
      ∃ er, l.mapM f = Except.error er := by
  intro l
  induction l with
  | nil => intro h; simp at h
  | cons x rest ih =>
    intro h
    rcases hfx : f x with er | b
    · exact ⟨er, by rw [List.mapM_cons, hfx]; rfl⟩
    · rcases h with ⟨a, ha, er, herr⟩
      rcases List.mem_cons.mp ha with rfl | ha'
      · rw [hfx] at herr
        cases herr
      · rcases ih ⟨a, ha', er, herr⟩ with ⟨er', hrest⟩
        refine ⟨er', ?_⟩
        rw [List.mapM_cons, hfx]
        show List.cons b <$> List.mapM f rest = Except.error er'
        rw [hrest]
        rfl

theorem mapM_except_ok {α β ε : Type} (f : α → Except ε β) :
    ∀ (l : List α), (∀ a ∈ l, ∃ b, f a = Except.ok b) →
      ∃ bs, l.mapM f = Except.ok bs := by
  intro l
  induction l with
  | nil => intro _; exact ⟨[], rfl⟩
  | cons x rest ih =>
    intro h
    rcases h x (List.mem_cons_self _ _) with ⟨b, hb⟩
    rcases ih (fun a ha => h a (List.mem_cons_of_mem _ ha)) with ⟨bs, hbs⟩
    refine ⟨b :: bs, ?_⟩
    rw [List.mapM_cons, hb]
    show List.cons b <$> List.mapM f rest = Except.ok (b :: bs)
    rw [hbs]
    rfl

/-- C6: if any single file in the list fails to read or to parse an
initialization time, `load_from_files` emits exactly one error message and no
`StringData` message (no partial batch); otherwise it emits exactly one
`StringData` message carrying all runs, whose `MetaData` has `now` equal to
`start`. -/
theorem load_from_files_all_or_nothing
    (readFile : String → Except BufkitDataErr String)
    (bufkit_init : String → Except BufkitDataErr (Option Int))
    (fd : FileData) :
    ((∃ p ∈ fd.files, ∃ er, read_and_init readFile bufkit_init p = Except.error er) →
      (∃ er, load_from_files readFile bufkit_init fd =
        [⟨InnerMessage.BufkitDataError er⟩]) ∧
      countStringData (load_from_files readFile bufkit_init fd) = 0 ∧
      countErrors (load_from_files readFile bufkit_init fd) = 1) ∧
    ((∀ p ∈ fd.files, ∃ r, read_and_init readFile bufkit_init p = Except.ok r) →
      ∃ runs, fd.files.mapM (read_and_init readFile bufkit_init) = Except.ok runs ∧
        load_from_files readFile bufkit_init fd =
          [⟨InnerMessage.StringData
            ⟨⟨fd.site, fd.model, fd.start, fd.start, fd.«end»⟩, runs⟩⟩]) := by
  constructor
  · intro hfail
    rcases mapM_except_error _ fd.files hfail with ⟨er, herr⟩
    have hload : load_from_files readFile bufkit_init fd =
        [⟨InnerMessage.BufkitDataError er⟩] := by
      unfold load_from_files
      rw [herr]
    refine ⟨⟨er, hload⟩, ?_, ?_⟩
    · rw [hload]
      rfl
    · rw [hload]
      rfl
  · intro hok
    rcases mapM_except_ok _ fd.files hok with ⟨runs, hruns⟩
    refine ⟨runs, hruns, ?_⟩
    unfold load_from_files
    rw [hruns]

/-- Let-free restatement of `load_for_site_and_date_and_time`, definitionally
equal to it (the `start`/`stop` bindings are inlined). -/
theorem load_archive_cases
    (connect : Except BufkitDataErr Unit)
    (stn : String → Model → Except BufkitDataErr Nat)
    (site : Nat → Option SiteInfo)
    (retrieve : Nat → Model → Int → Int → Except BufkitDataErr (List String))
    (bufkit_init : String → Except BufkitDataErr (Option Int))
    (siteId : String) (model : Model) (time days_back : Int) :
    load_for_site_and_date_and_time connect stn site retrieve bufkit_init
        siteId model time days_back =
      match connect with
      | Except.error err => [⟨InnerMessage.BufkitDataError err⟩]
      | Except.ok _ =>
        match resolve_site stn site siteId model with
        | Except.error err => [⟨InnerMessage.BufkitDataError err⟩]
        | Except.ok si =>
          match retrieve si.station_num model (time - duration_days days_back)
              (time + duration_days (num_days model)) with
          | Except.ok data =>
            [⟨InnerMessage.StringData ⟨⟨si, as_static_str model,
              time - duration_days days_back, time,
              time + duration_days (num_days model)⟩,
              runs_of_blocks bufkit_init data⟩⟩]
          | Except.error err => [⟨InnerMessage.BufkitDataError err⟩] := rfl

/-- C7: every successful archive range load for reference time `time`,
lookback `days_back` and model `model` emits a `StringData` whose `MetaData`
has `start = time - days_back` days, `now = time` and
`end = time + num_days model` days, where `num_days` gives 7 days for GFS, 4
for NAM and 3 for NAM4KM; and a window matching zero initialization times
still yields a `StringData` with an empty run collection, not an error. -/
theorem archive_range_window
    (connect : Except BufkitDataErr Unit)
    (stn : String → Model → Except BufkitDataErr Nat)
    (site : Nat → Option SiteInfo)
    (retrieve : Nat → Model → Int → Int → Except BufkitDataErr (List String))
    (bufkit_init : String → Except BufkitDataErr (Option Int))
    (siteId : String) (model : Model) (time days_back : Int) :
    (∀ sd, load_for_site_and_date_and_time connect stn site retrieve bufkit_init
        siteId model time days_back = [⟨InnerMessage.StringData sd⟩] →
      sd.meta.start = time - duration_days days_back ∧ sd.meta.now = time ∧
      sd.meta.«end» = time + duration_days (num_days model)) ∧
    (∀ si, connect = Except.ok () →
      resolve_site stn site siteId model = Except.ok si →
      retrieve si.station_num model (time - duration_days days_back)
          (time + duration_days (num_days model)) = Except.ok [] →
      load_for_site_and_date_and_time connect stn site retrieve bufkit_init
          siteId model time days_back =
        [⟨InnerMessage.StringData ⟨⟨si, as_static_str model,
          time - duration_days days_back, time,
          time + duration_days (num_days model)⟩, []⟩⟩]) ∧
    (num_days Model.GFS = 7 ∧ num_days Model.NAM = 4 ∧ num_days Model.NAM4KM = 3) := by
  refine ⟨?_, ?_, rfl, rfl, rfl⟩
  · intro sd heq
    rw [load_archive_cases] at heq
    split at heq
    · simp at heq
    · split at heq
      · simp at heq
      · split at heq
        next si data hret =>
          simp at heq
          subst heq
          exact ⟨rfl, rfl, rfl⟩
        next => simp at heq
  · intro si hconn hres hret
    subst hconn
    rw [load_archive_cases]
    simp only [hres, hret]
    rfl

/-- The model loop of `load_all_sites_and_models` under successful site
listings: each listed `(site, model)` pair yields exactly one message,
computed by `pair_message` from that pair's own retrieval alone. -/
theorem lasm_loop_ok
    (sites_and_ids_for : Model → Except BufkitDataErr (List (SiteInfo × String)))
    (retrieve : Nat → Model → Int → Int → Except BufkitDataErr (List String))
    (bufkit_init : String → Except BufkitDataErr (Option Int))
    (now start : Int) (sites : Model → List (SiteInfo × String)) :
    ∀ (ms : List Model), (∀ m ∈ ms, sites_and_ids_for m = Except.ok (sites m)) →
      lasm_loop sites_and_ids_for retrieve bufkit_init now start ms =
        ms.flatMap (fun m => (sites m).map (fun p =>
          pair_message retrieve bufkit_init now start
            (now + duration_days (num_days m)) m p.1)) := by
  intro ms
  induction ms with
  | nil => intro _; rfl
  | cons m rest ih =>
    intro hok
    unfold lasm_loop
    rw [hok m (List.mem_cons_self _ _)]
    rw [List.flatMap_cons, ih (fun m' hm' => hok m' (List.mem_cons_of_mem _ hm'))]

/-- C8: in the all-sites-and-models fan-out, each `(site, model)` pair's
outcome is independent: when the site listings succeed, the loader emits
exactly one message per enumerated pair, a pure function (`pair_message`) of
that pair's own retrieval result, so an archive retrieval error for one pair
becomes exactly that pair's error message and cannot suppress any other
pair's message. -/
theorem fan_out_pairs_independent
    (connect : Except BufkitDataErr Unit)
    (sites_and_ids_for : Model → Except BufkitDataErr (List (SiteInfo × String)))
    (retrieve : Nat → Model → Int → Int → Except BufkitDataErr (List String))
    (bufkit_init : String → Except BufkitDataErr (Option Int))
    (now days_back : Int) (sites : Model → List (SiteInfo × String))
    (hconn : connect = Except.ok ())
    (hsites : ∀ m, sites_and_ids_for m = Except.ok (sites m)) :
    load_all_sites_and_models connect sites_and_ids_for retrieve bufkit_init
        now days_back =
      Model.all.flatMap (fun m => (sites m).map (fun p =>
        pair_message retrieve bufkit_init now (now - duration_days days_back)
          (now + duration_days (num_days m)) m p.1)) ∧
    (∀ (m : Model) (si : SiteInfo) (er : BufkitDataErr),
      retrieve si.station_num m (now - duration_days days_back)
          (now + duration_days (num_days m)) = Except.error er →
      pair_message retrieve bufkit_init now (now - duration_days days_back)
        (now + duration_days (num_days m)) m si =
        ⟨InnerMessage.BufkitDataError er⟩) := by
  constructor
  · subst hconn
    unfold load_all_sites_and_models
    exact lasm_loop_ok sites_and_ids_for retrieve bufkit_init now
      (now - duration_days days_back) sites Model.all (fun m _ => hsites m)
  · intro m si er hret
    unfold pair_message
    rw [hret]

/-- C9 counterexample: the claim "for every loader, a raw text block whose
sounding content fails to parse is silently dropped and never surfaced as a
hard failure" is false for `load_from_files`: with a single readable file
whose content fails to parse, the loader emits an error message and no
`StringData`. -/
theorem parse_failure_surfaces_in_file_loader :
    load_from_files readOk initBad fdOne =
      [⟨InnerMessage.BufkitDataError (BufkitDataErr.bufkit 3)⟩] ∧
    countErrors (load_from_files readOk initBad fdOne) = 1 ∧
    countStringData (load_from_files readOk initBad fdOne) = 0 := by
  refine ⟨rfl, rfl, rfl⟩

/-- C9 amended: parse-failure policy differs per loader.  In the archive
range loader a raw text block whose sounding content fails to parse is
silently dropped from the single emitted `StringData` and never causes an
error message; in `load_from_files` a readable file whose content fails to
parse causes the loader's single error message (and no `StringData`). -/
theorem parse_failure_policy_per_loader
    (connect : Except BufkitDataErr Unit)
    (stn : String → Model → Except BufkitDataErr Nat)
    (site : Nat → Option SiteInfo)
    (retrieve : Nat → Model → Int → Int → Except BufkitDataErr (List String))
    (bufkit_init : String → Except BufkitDataErr (Option Int))
    (readFile : String → Except BufkitDataErr String)
    (siteId : String) (model : Model) (time days_back : Int) (fd : FileData) :
    (∀ si blocks, connect = Except.ok () →
      resolve_site stn site siteId model = Except.ok si →
      retrieve si.station_num model (time - duration_days days_back)
          (time + duration_days (num_days model)) = Except.ok blocks →
      load_for_site_and_date_and_time connect stn site retrieve bufkit_init
          siteId model time days_back =
        [⟨InnerMessage.StringData ⟨⟨si, as_static_str model,
          time - duration_days days_back, time,
          time + duration_days (num_days model)⟩,
          runs_of_blocks bufkit_init blocks⟩⟩] ∧
      countErrors (load_for_site_and_date_and_time connect stn site retrieve
        bufkit_init siteId model time days_back) = 0 ∧
      (∀ s ∈ blocks, init_time_opt bufkit_init s = none →
        ∀ pr ∈ runs_of_blocks bufkit_init blocks, pr.2 ≠ s)) ∧
    (∀ p ∈ fd.files, ∀ contents, readFile p = Except.ok contents →
      ∀ er, bufkit_init contents = Except.error er →
      (∃ er2, load_from_files readFile bufkit_init fd =
        [⟨InnerMessage.BufkitDataError er2⟩]) ∧
      countStringData (load_from_files readFile bufkit_init fd) = 0) := by
  constructor
  · intro si blocks hconn hres hret
    subst hconn
    have hload : load_for_site_and_date_and_time (Except.ok ()) stn site retrieve
        bufkit_init siteId model time days_back =
        [⟨InnerMessage.StringData ⟨⟨si, as_static_str model,
          time - duration_days days_back, time,
          time + duration_days (num_days model)⟩,
          runs_of_blocks bufkit_init blocks⟩⟩] := by
      rw [load_archive_cases]
      simp only [hres, hret]
    refine ⟨hload, by rw [hload]; rfl, ?_⟩
    intro s hs hnone pr hpr
    intro hpr2
    rcases List.mem_filterMap.mp hpr with ⟨s', hs', hmap⟩
    rcases hopt : init_time_opt bufkit_init s' with _ | t
    · rw [hopt] at hmap
      cases hmap
    · rw [hopt] at hmap
      have hpr' : pr = (t, s') := (Option.some.inj hmap).symm
      rw [hpr'] at hpr2
      simp at hpr2
      rw [hpr2] at hopt
      rw [hnone] at hopt
      cases hopt
  · intro p hp contents hread er hparse
    have hfail : read_and_init readFile bufkit_init p = Except.error er := by
      unfold read_and_init
      rw [hread]
      show (bufkit_init contents >>= fun o =>
        match o with
        | some t => pure (t, contents)
        | none => throw BufkitDataErr.notEnoughData) = Except.error er
      rw [hparse]
      rfl
    rcases mapM_except_error _ fd.files ⟨p, hp, er, hfail⟩ with ⟨er2, herr⟩
    have hload : load_from_files readFile bufkit_init fd =
        [⟨InnerMessage.BufkitDataError er2⟩] := by
      unfold load_from_files
      rw [herr]
    exact ⟨⟨er2, hload⟩, by rw [hload]; rfl⟩

/-! Concrete instantiations of the claim theorems. -/

theorem merge_sorted_unique_meta_witness :
    mergedScenarioA.meta = ensScenarioA.meta ∧
    mergedScenarioA.data.data.Pairwise vtLt ∧
    (∀ v : Int, mergedScenarioA.data.data.countP
      (fun x => valid_time x == some v) ≤ 1) ∧
    (∀ x ∈ mergedScenarioA.data.data, ∃ r ∈ ensScenarioA.data, x ∈ r.2.data) :=
  merge_sorted_unique_meta ensScenarioA mergedScenarioA (by rfl)

theorem merge_min_lead_first_seen_witness :
    ∃ pre post, candidates 21600 (runsElems ensScenarioA.data) =
        pre ++ elemA3 :: post ∧
      (∀ y ∈ pre, leadD elemA3 < leadD y) ∧
      (∀ y ∈ candidates 21600 (runsElems ensScenarioA.data),
        leadD elemA3 ≤ leadD y) ∧
      (∀ y ∈ runsElems ensScenarioA.data, valid_time y = some 21600 →
        ∀ ly, lead_time y = some ly → leadD elemA3 ≤ ly) :=
  merge_min_lead_first_seen ensScenarioA mergedScenarioA (by rfl) elemA3
    (by decide) 21600 (by rfl)

theorem merge_total_drops_undefined_witness :
    merge ensLeadNone = some ⟨ensLeadNone.meta, ⟨[]⟩⟩ :=
  (merge_total_drops_undefined ensLeadNone).2.1 (by decide)

theorem filter_map_inner_spec_witness :
    (filter_map_inner ensScenarioA funEx).data.map (fun p => (p.1, p.2.data)) =
      (ensScenarioA.data.map (fun p => (p.1, p.2.data.filterMap funEx))).filter
        (fun p => !p.2.isEmpty) :=
  (filter_map_inner_spec ensScenarioA funEx).2.2

theorem merge_single_run_identity_witness :
    ∃ out, merge ensSingle = some out ∧
      out.data.data.Perm [elemA1, elemA2] ∧
      out.data.data.Pairwise vtLt :=
  merge_single_run_identity ensSingle 0 ⟨[elemA1, elemA2]⟩ rfl (by decide)
    (by decide)

theorem load_from_files_all_or_nothing_witness :
    ∃ runs, fdEx.files.mapM (read_and_init readOk initOk) = Except.ok runs ∧
      load_from_files readOk initOk fdEx =
        [⟨InnerMessage.StringData
          ⟨⟨fdEx.site, fdEx.model, fdEx.start, fdEx.start, fdEx.«end»⟩, runs⟩⟩] :=
  (load_from_files_all_or_nothing readOk initOk fdEx).2
    (fun p _ => ⟨(42, "RAW " ++ p), rfl⟩)

theorem archive_range_window_witness :
    load_for_site_and_date_and_time connectOk stnOk siteLookupEx retrieveEmpty
        initOk "kxyz" Model.GFS 1000 2 =
      [⟨InnerMessage.StringData ⟨⟨siteEx, as_static_str Model.GFS,
        1000 - duration_days 2, 1000,
        1000 + duration_days (num_days Model.GFS)⟩, []⟩⟩] :=
  (archive_range_window connectOk stnOk siteLookupEx retrieveEmpty initOk
    "kxyz" Model.GFS 1000 2).2.1 siteEx rfl (by rfl) rfl

theorem fan_out_pairs_independent_witness :
    load_all_sites_and_models connectOk sitesOk retrieveMixed initOk 5000 3 =
      Model.all.flatMap (fun m =>
        ((fun _ : Model => [(siteEx, "KXYZ"), (siteEx2, "KABC")]) m).map (fun p =>
          pair_message retrieveMixed initOk 5000 (5000 - duration_days 3)
            (5000 + duration_days (num_days m)) m p.1)) ∧
    (∀ (m : Model) (si : SiteInfo) (er : BufkitDataErr),
      retrieveMixed si.station_num m (5000 - duration_days 3)
          (5000 + duration_days (num_days m)) = Except.error er →
      pair_message retrieveMixed initOk 5000 (5000 - duration_days 3)
        (5000 + duration_days (num_days m)) m si =
        ⟨InnerMessage.BufkitDataError er⟩) :=
  fan_out_pairs_independent connectOk sitesOk retrieveMixed initOk 5000 3
    (fun _ => [(siteEx, "KXYZ"), (siteEx2, "KABC")]) rfl (fun _ => rfl)

theorem parse_failure_policy_per_loader_witness :
    load_for_site_and_date_and_time connectOk stnOk siteLookupEx retrieveBlocks
        initBad "kxyz" Model.NAM 0 1 =
      [⟨InnerMessage.StringData ⟨⟨siteEx, as_static_str Model.NAM,
        0 - duration_days 1, 0, 0 + duration_days (num_days Model.NAM)⟩,
        runs_of_blocks initBad ["block1", "block2"]⟩⟩] ∧
    countErrors (load_for_site_and_date_and_time connectOk stnOk siteLookupEx
      retrieveBlocks initBad "kxyz" Model.NAM 0 1) = 0 ∧
    (∀ s ∈ ["block1", "block2"], init_time_opt initBad s = none →
      ∀ pr ∈ runs_of_blocks initBad ["block1", "block2"], pr.2 ≠ s) :=
  (parse_failure_policy_per_loader connectOk stnOk siteLookupEx retrieveBlocks
    initBad readOk "kxyz" Model.NAM 0 1 fdOne).1 siteEx ["block1", "block2"]
    rfl (by rfl) rfl

theorem merge_unwrap_never_panics_witness :
    (merge ensScenarioA).isSome = true :=
  merge_unwrap_never_panics ensScenarioA

end Fwxcharts
